import Mathlib

/-!
Shallow embedding of the two data-transformation utilities of
`src/tesscut_exomast/TESScut_ExoMAST_Tutorial.ipynb`:

* `find_index` (notebook cell 42): the NearestTimeIndexer,
  `(np.abs(cutout_table['TIME'] - btjd)).argmin()`.  `np.argmin` returns the
  index of the *first* occurrence of the minimum value.  Timestamps are
  modelled as rationals (the algorithm only subtracts, takes absolute values
  and compares).  The empty-sequence failure (`np.argmin` raises
  `ValueError: attempt to get argmin of an empty sequence`, the spec's
  `EmptySequenceError`) is modelled by an `Option` result: `none` is the
  failure, `some i` the returned index.

* `json_to_table` (notebook cell 23): the TableCoercer, mapping a field
  schema (`colname`/`datatype`/`description` dicts) and a list of loosely
  typed row records to an astropy `Table` of numpy columns.  Fallible steps
  (unresolvable dtypes, unparseable values) are modelled with `Except`.

* `num_frames` (notebook cell 45, `make_animation`): the inclusive frame
  count `end_frame - start_frame + 1`.
-/

namespace TessTutorial

/-! ### NearestTimeIndexer (`find_index`, notebook cell 42) -/

/-- Model of `np.abs` on one element: the absolute value. -/
def npAbs (q : ℚ) : ℚ := if q < 0 then -q else q

/-- Index of the first occurrence of the minimum of a list (`np.argmin`);
`none` exactly on the empty list, where numpy raises (the spec's
`EmptySequenceError`).  The head wins ties against the minimum of the tail,
which is the first-occurrence rule of `np.argmin`. -/
def argmin : List ℚ → Option ℕ
  | [] => none
  | x :: xs =>
    match argmin xs with
    | none => some 0
    | some j => if x ≤ xs.getD j 0 then some 0 else some (j + 1)

/-- Embedding of `find_index` from the notebook: `(np.abs(timestamps - btjd)).argmin()`.
The notebook reads the timestamps from the module-level
`cutout_table['TIME']`; per the spec's contract they are an explicit
argument here. -/
def find_index (timestamps : List ℚ) (btjd : ℚ) : Option ℕ :=
  argmin (timestamps.map fun t => npAbs (t - btjd))

/-! ### TableCoercer (`json_to_table`, notebook cell 23) -/

/-- An untyped JSON scalar of a row record: a string, a number, or
null/missing (`None`). -/
inductive Scalar
  | str (s : String)
  | num (q : ℚ)
  | null
deriving DecidableEq, Repr

/-- A row record: a finite mapping from column name to scalar (a Python
dict, so keys are unique in intended inputs; lookup takes the first
binding). -/
abbrev RawRecord := List (String × Scalar)

/-- Model of `x.get(col, None)` from the source: dictionary lookup with `None`
default. -/
def RawRecord.get (r : RawRecord) (k : String) : Scalar :=
  (r.lookup k).getD .null

/-- One entry of the `fields` schema list,
`{colname: ..., datatype: ..., description: ...}`; the description is never
read by `json_to_table`. -/
structure FieldDesc where
  colname : String
  datatype : String
  description : String
deriving DecidableEq, Repr

/-- Contiguous-substring test on character lists: does `pat` occur starting
at some position? -/
def containsSub (pat : List Char) : List Char → Bool
  | [] => pat.isEmpty
  | c :: cs => pat.isPrefixOf (c :: cs) || containsSub pat cs

/-- Python's `"varchar" in atype` substring test. -/
def strContains (s pat : String) : Bool :=
  containsSub pat.toList s.toList

/-- Python's `str.strip()` (`col = col.strip()` in the source): remove
leading and trailing whitespace characters. -/
def pyStrip (s : String) : String :=
  String.mk
    (((s.toList.dropWhile Char.isWhitespace).reverse.dropWhile
      Char.isWhitespace).reverse)

/-- Numeric value of a digit run (the regex group `(\d+)`). -/
def digitsToNat (ds : List Char) : ℕ :=
  ds.foldl (fun n c => 10 * n + (c.toNat - 48)) 0

/-- One anchored attempt of `re.compile(r"varchar\((\d+)\)")`: does the
pattern match starting exactly here, and if so what number does the group
capture?  `\d+` is greedy and the following literal `)` is not a digit, so
the group is the maximal digit run after `"varchar("`, which must be
non-empty and followed by `)`. -/
def varcharMatchAt (cs : List Char) : Option ℕ :=
  if "varchar(".toList.isPrefixOf cs then
    let rest := cs.drop 8
    let ds := rest.takeWhile Char.isDigit
    if ds.isEmpty then none
    else
      match rest.drop ds.length with
      | ')' :: _ => some (digitsToNat ds)
      | _ => none
  else none

/-- Model of `rx.search(atype)` for `rx = re.compile(r"varchar\((\d+)\)")`: the
leftmost match wins; returns the captured width `match.group(1)`. -/
def varcharSearch : List Char → Option ℕ
  | [] => none
  | c :: cs =>
    match varcharMatchAt (c :: cs) with
    | some n => some n
    | none => varcharSearch cs

/-- The two failure modes of the source loop body: `TypeMappingError` covers
an unresolvable or malformed dtype string (numpy's `TypeError`, or the
`AttributeError` from `rx.search(atype)` returning `None` on a malformed
varchar marker); `ValueCoercionError` covers a cell value that cannot be
converted to the column's storage type (numpy's `ValueError`). -/
inductive CoerceError
  | typeMappingError
  | valueCoercionError
deriving DecidableEq, Repr

/-- A resolved numpy storage dtype: fixed-width unicode `"U<N>"` or a
floating-point dtype. -/
inductive NpDtype
  | U (width : ℕ)
  | float
deriving DecidableEq, Repr

/-- Modelled from the spec: the target type system's resolver for native
dtype names (`np.array(..., dtype=atype)` for an `atype` passed through
unchanged).  The resolver itself is numpy code, external to the repository;
only the floating-point native names the tutorial's data can reach are
modelled, every other name is unresolvable and fails. -/
def npNativeTypes : List String := ["float", "float64"]

/-- The per-entry dtype computation of the source loop:
`if "varchar" in atype: atype = "U" + rx.search(atype).group(1)` (an
unmatched search raises), then `if atype == "real": atype = "float"`, then
the remaining string is resolved as a native numpy dtype name. -/
def resolveAtype (atype : String) : Except CoerceError NpDtype :=
  if strContains atype "varchar" then
    match varcharSearch atype.toList with
    | some n => .ok (.U n)
    | none => .error .typeMappingError
  else if atype = "real" then .ok .float
  else if atype ∈ npNativeTypes then .ok .float
  else .error .typeMappingError

/-- A cell of a floating-point column: a finite value or NaN (numpy converts
`None` to NaN in a float array). -/
inductive FloatCell
  | val (q : ℚ)
  | nan
deriving DecidableEq, Repr

/-- Python's `str()` applied to a cell scalar, as numpy does when filling a
`U<N>` column.  `str(None)` is the 4-character string `"None"`.  Numbers are
rendered by `toString` (no claim exercises numeric values in text
columns). -/
def pyStr : Scalar → String
  | .str s => s
  | .num q => toString q
  | .null => "None"

/-- Python's `float(s)` on a decimal string: optional surrounding
whitespace, optional sign, integer digits with an optional fractional part
(exponents and the `inf`/`nan` words are not exercised by any claim and are
not modelled); `none` when the string is not numeric. -/
def parseFloat? (s : String) : Option ℚ :=
  let cs := (pyStrip s).toList
  let sign : ℚ × List Char :=
    match cs with
    | '-' :: rest => (-1, rest)
    | '+' :: rest => (1, rest)
    | _ => (1, cs)
  let intPart := sign.2.takeWhile Char.isDigit
  let rest := sign.2.drop intPart.length
  match rest with
  | [] =>
    if intPart.isEmpty then none
    else some (sign.1 * digitsToNat intPart)
  | '.' :: frac =>
    if frac.all Char.isDigit ∧ ¬(intPart.isEmpty ∧ frac.isEmpty) then
      some (sign.1 * ((digitsToNat intPart : ℚ) +
        (digitsToNat frac : ℚ) / 10 ^ frac.length))
    else none
  | _ => none

/-- Conversion of one cell scalar into a float column
(`np.array(..., dtype="float")`): numbers are kept, `None` becomes NaN,
numeric strings are parsed, anything else raises numpy's `ValueError`. -/
def toFloatCell : Scalar → Except CoerceError FloatCell
  | .num q => .ok (.val q)
  | .null => .ok .nan
  | .str s =>
    match parseFloat? s with
    | some q => .ok (.val q)
    | none => .error .valueCoercionError

/-- A typed numpy column: a fixed-width unicode array (values truncated to
the width, as numpy's `U<N>` storage does implicitly) or a float array. -/
inductive Column
  | colU (width : ℕ) (vals : List String)
  | colFloat (vals : List FloatCell)
deriving DecidableEq, Repr

/-- Number of rows stored in a column. -/
def Column.size : Column → ℕ
  | .colU _ vs => vs.length
  | .colFloat vs => vs.length

/-- The implicit truncation of numpy's fixed-width `U<N>` storage: keep the
first `n` characters of the rendered value. -/
def truncate (s : String) (n : ℕ) : String :=
  String.mk (s.toList.take n)

/-- Elementwise fallible conversion of a list, aborting at the first
failing element (the conversion loop inside `np.array(list, dtype=...)`). -/
def mapExcept {α β : Type} (g : α → Except CoerceError β) :
    List α → Except CoerceError (List β)
  | [] => .ok []
  | a :: l =>
    match g a with
    | .error e => .error e
    | .ok b =>
      match mapExcept g l with
      | .error e => .error e
      | .ok bs => .ok (b :: bs)

/-- Model of `np.array([x.get(col, None) for x in data], dtype=atype)` for a resolved
dtype: a `U<N>` column stringifies every cell and truncates it to `N`
characters; a float column converts every cell, failing if any cell is
non-convertible. -/
def buildColumn (d : NpDtype) (col : String) (data : List RawRecord) :
    Except CoerceError Column :=
  match d with
  | .U n => .ok (.colU n (data.map fun r => truncate (pyStr (r.get col)) n))
  | .float =>
    match mapExcept (fun r => toFloatCell (r.get col)) data with
    | .error e => .error e
    | .ok cells => .ok (.colFloat cells)

/-- The whole loop body of `json_to_table` for one schema entry: strip the
column name, resolve the dtype, build the column array. -/
def buildEntry (f : FieldDesc) (data : List RawRecord) :
    Except CoerceError Column :=
  match resolveAtype f.datatype with
  | .error e => .error e
  | .ok d => buildColumn d (pyStrip f.colname) data

/-- The astropy `Table` being filled: an ordered list of named columns with
distinct names.  `data_table[col] = arr` replaces an existing column of that
name in place and otherwise appends a new column at the end. -/
abbrev TypedTable := List (String × Column)

/-- Model of `data_table[col] = arr`. -/
def tableSet (t : TypedTable) (k : String) (c : Column) : TypedTable :=
  if k ∈ t.map Prod.fst then t.map fun p => if p.1 = k then (k, c) else p
  else t ++ [(k, c)]

/-- The `for col, atype in [(x['colname'], x['datatype']) for x in fields]`
loop of `json_to_table`, threading the table being built. -/
def buildCols (fields : List FieldDesc) (data : List RawRecord)
    (acc : TypedTable) : Except CoerceError TypedTable :=
  match fields with
  | [] => .ok acc
  | f :: fs =>
    match buildEntry f data with
    | .error e => .error e
    | .ok c => buildCols fs data (tableSet acc (pyStrip f.colname) c)

/-- Embedding of `json_to_table(fields, data)` from the notebook: start from an empty
`Table()` and run the loop; any exception aborts with no table. -/
def json_to_table (fields : List FieldDesc) (data : List RawRecord) :
    Except CoerceError TypedTable :=
  buildCols fields data []

/-- Specification helper (not part of the source): the effect of one
`data_table[col] = ...` assignment on the list of column names. -/
def insKey (ks : List String) (k : String) : List String :=
  if k ∈ ks then ks else ks ++ [k]

/-- Specification helper: the column names after a sequence of
assignments. -/
def addKeys (ks : List String) : List String → List String
  | [] => ks
  | n :: ns => addKeys (insKey ks n) ns

/-- Specification helper: the last schema entry whose stripped column name
is `k` (the one whose assignment survives in the table). -/
def lastNamed (k : String) : List FieldDesc → Option FieldDesc
  | [] => none
  | f :: fs =>
    match lastNamed k fs with
    | some g => some g
    | none => if (pyStrip f.colname) = k then some f else none

/-! ### Frame-range consumption (`make_animation`, notebook cell 45) -/

/-- Frame count of `make_animation`: `num_frames = end_frame - start_frame + 1`
(the comment in the source reads "include the end frame"). -/
def num_frames (start_frame end_frame : ℕ) : ℕ :=
  end_frame - start_frame + 1

/-- The inclusive slice of aligned sample data selected by a
`[start_frame, end_frame]` range: `make_animation` displays frames
`start_frame + i` for `i < num_frames start_frame end_frame`. -/
def inclusiveSlice (l : List ℚ) (start_frame end_frame : ℕ) : List ℚ :=
  (l.drop start_frame).take (num_frames start_frame end_frame)

/-! ### Basic helpers -/

theorem npAbs_eq_abs (q : ℚ) : npAbs q = |q| := by
  unfold npAbs
  rcases lt_or_le q 0 with h | h
  · rw [if_pos h, abs_of_neg h]
  · rw [if_neg (not_lt.mpr h), abs_of_nonneg h]

theorem getD_map_of_lt {α β : Type} (f : α → β) (l : List α) (dα : α) (dβ : β) :
    ∀ i : ℕ, i < l.length → (l.map f).getD i dβ = f (l.getD i dα) := by
  induction l with
  | nil => intro i h; simp at h
  | cons x xs ih =>
    intro i h
    cases i with
    | zero => rfl
    | succ j => simpa [List.getD] using ih j (by simpa using h)

/-! ### argmin correctness -/

theorem argmin_cons_ne_none (x : ℚ) (xs : List ℚ) : argmin (x :: xs) ≠ none := by
  simp only [argmin]
  cases argmin xs with
  | none => simp
  | some j =>
    dsimp only
    split <;> simp

theorem argmin_eq_none_iff (l : List ℚ) : argmin l = none ↔ l = [] := by
  cases l with
  | nil => simp [argmin]
  | cons x xs => simp [argmin_cons_ne_none x xs]

theorem argmin_spec (l : List ℚ) :
    ∀ i, argmin l = some i →
      i < l.length ∧
      (∀ j, j < l.length → l.getD i 0 ≤ l.getD j 0) ∧
      (∀ j, j < i → l.getD i 0 < l.getD j 0) := by
  induction l with
  | nil => intro i h; simp [argmin] at h
  | cons x xs ih =>
    intro i h
    simp only [argmin] at h
    cases hx : argmin xs with
    | none =>
      rw [hx] at h
      have hxs : xs = [] := (argmin_eq_none_iff xs).mp hx
      subst hxs
      have hi : i = 0 := by simpa using h.symm
      subst hi
      refine ⟨by simp, ?_, ?_⟩
      · intro j hj
        have hj0 : j = 0 := Nat.lt_one_iff.mp (by simpa using hj)
        subst hj0
        exact le_refl _
      · intro j hj; omega
    | some j =>
      rw [hx] at h
      dsimp only at h
      obtain ⟨hjlen, hjmin, hjfirst⟩ := ih j hx
      by_cases hle : x ≤ xs.getD j 0
      · rw [if_pos hle] at h
        have hi : i = 0 := (Option.some.inj h).symm
        subst hi
        refine ⟨by simp, ?_, ?_⟩
        · intro k hk
          cases k with
          | zero => exact le_refl _
          | succ m =>
            have hm : m < xs.length := by simpa using hk
            calc (x :: xs).getD 0 0 = x := rfl
              _ ≤ xs.getD j 0 := hle
              _ ≤ xs.getD m 0 := hjmin m hm
              _ = (x :: xs).getD (m + 1) 0 := rfl
        · intro k hk; omega
      · rw [if_neg hle] at h
        have hi : i = j + 1 := (Option.some.inj h).symm
        subst hi
        push_neg at hle
        refine ⟨by simpa using hjlen, ?_, ?_⟩
        · intro k hk
          cases k with
          | zero => exact le_of_lt (by simpa using hle)
          | succ m =>
            have hm : m < xs.length := by simpa using hk
            simpa using hjmin m hm
        · intro k hk
          cases k with
          | zero => simpa using hle
          | succ m =>
            have hm : m < j := by omega
            simpa using hjfirst m hm

theorem sorted_getD_mono (ts : List ℚ) (hs : List.Sorted (· ≤ ·) ts) {i j : ℕ}
    (hij : i ≤ j) (hj : j < ts.length) : ts.getD i 0 ≤ ts.getD j 0 := by
  have hi : i < ts.length := lt_of_le_of_lt hij hj
  rcases eq_or_lt_of_le hij with rfl | hlt
  · exact le_refl _
  · rw [List.getD_eq_getElem ts 0 hi, List.getD_eq_getElem ts 0 hj]
    have := hs.rel_get_of_lt (show (⟨i, hi⟩ : Fin ts.length) < ⟨j, hj⟩ from hlt)
    simpa using this

theorem find_index_spec (ts : List ℚ) (q : ℚ) (i : ℕ) (h : find_index ts q = some i) :
    i < ts.length ∧
    (∀ j, j < ts.length → |ts.getD i 0 - q| ≤ |ts.getD j 0 - q|) ∧
    (∀ j, j < i → |ts.getD i 0 - q| < |ts.getD j 0 - q|) := by
  obtain ⟨hlen, hmin, hfirst⟩ := argmin_spec _ i h
  rw [List.length_map] at hlen
  have key : ∀ k, k < ts.length →
      (ts.map fun t => npAbs (t - q)).getD k 0 = |ts.getD k 0 - q| := by
    intro k hk
    rw [getD_map_of_lt _ ts 0 0 k hk, npAbs_eq_abs]
  refine ⟨hlen, ?_, ?_⟩
  · intro j hj
    have hle := hmin j (by simpa using hj)
    rwa [key i hlen, key j hj] at hle
  · intro j hj
    have hlt := hfirst j hj
    rwa [key i hlen, key j (lt_trans hj hlen)] at hlt

/-- C1: On every non-empty timestamp sequence, `find_index` returns the
index of an element of minimum absolute difference from the query, and in
case of a tie the first such index in sequence order (the two strict/weak
inequality conjuncts characterise exactly that index).  For a sorted
sequence and a query at or below the first element it returns index 0, and
for a query at or above the last element the returned index carries the last
element's value; in particular for timestamps `[1330, 1332, 1334, 1336]`,
query `1334.9` gives index 2, the tie at query `1331` gives index 0, and the
out-of-range query `2000` clamps to index 3. -/
theorem find_index_nearest :
    (∀ ts : List ℚ, ∀ q : ℚ, ts ≠ [] →
        ∃ i, find_index ts q = some i ∧ i < ts.length ∧
          (∀ j, j < ts.length → |ts.getD i 0 - q| ≤ |ts.getD j 0 - q|) ∧
          (∀ j, j < i → |ts.getD i 0 - q| < |ts.getD j 0 - q|)) ∧
    (∀ ts : List ℚ, ∀ q : ℚ, ∀ i : ℕ, List.Sorted (· ≤ ·) ts →
        find_index ts q = some i → q ≤ ts.getD 0 0 → i = 0) ∧
    (∀ ts : List ℚ, ∀ q : ℚ, ∀ i : ℕ, List.Sorted (· ≤ ·) ts →
        find_index ts q = some i → ts.getD (ts.length - 1) 0 ≤ q →
        ts.getD i 0 = ts.getD (ts.length - 1) 0) ∧
    find_index [1330, 1332, 1334, 1336] 1334.9 = some 2 ∧
    find_index [1330, 1332, 1334, 1336] 1331 = some 0 ∧
    find_index [1330, 1332, 1334, 1336] 2000 = some 3 := by
  refine ⟨?_, ?_, ?_, ?_, ?_, ?_⟩
  · intro ts q hne
    cases hfi : find_index ts q with
    | none =>
      exfalso
      have hmap : ts.map (fun t => npAbs (t - q)) = [] := (argmin_eq_none_iff _).mp hfi
      exact hne (List.map_eq_nil_iff.mp hmap)
    | some i =>
      obtain ⟨hlen, hmin, hfirst⟩ := find_index_spec ts q i hfi
      exact ⟨i, rfl, hlen, hmin, hfirst⟩
  · intro ts q i hs hfi hq
    obtain ⟨hlen, hmin, hfirst⟩ := find_index_spec ts q i hfi
    by_contra h0
    have hpos : 0 < i := Nat.pos_of_ne_zero h0
    have hmono : ts.getD 0 0 ≤ ts.getD i 0 := sorted_getD_mono ts hs (Nat.zero_le i) hlen
    have habs0 : |ts.getD 0 0 - q| = ts.getD 0 0 - q := abs_of_nonneg (by linarith)
    have habsi : |ts.getD i 0 - q| = ts.getD i 0 - q := abs_of_nonneg (by linarith)
    have hlt := hfirst 0 hpos
    rw [habs0, habsi] at hlt
    linarith
  · intro ts q i hs hfi hq
    obtain ⟨hlen, hmin, hfirst⟩ := find_index_spec ts q i hfi
    have hL : ts.length - 1 < ts.length := by omega
    have hiL : i ≤ ts.length - 1 := by omega
    have hmono : ts.getD i 0 ≤ ts.getD (ts.length - 1) 0 := sorted_getD_mono ts hs hiL hL
    have hmin' := hmin (ts.length - 1) hL
    have h1 : |ts.getD i 0 - q| = q - ts.getD i 0 := by
      rw [abs_sub_comm]; exact abs_of_nonneg (by linarith)
    have h2 : |ts.getD (ts.length - 1) 0 - q| = q - ts.getD (ts.length - 1) 0 := by
      rw [abs_sub_comm]; exact abs_of_nonneg (by linarith)
    rw [h1, h2] at hmin'
    linarith
  · norm_num [find_index, argmin, npAbs]
  · norm_num [find_index, argmin, npAbs]
  · norm_num [find_index, argmin, npAbs]

/-- Witness for C1, applying `find_index_nearest` at the concrete sorted
sequence `[1330, 1332, 1334, 1336]` and the below-range query `1000`. -/
theorem find_index_nearest_witness :
    List.Sorted (· ≤ ·) [(1330 : ℚ), 1332, 1334, 1336] ∧
    find_index [1330, 1332, 1334, 1336] 1000 = some 0 ∧
    (1000 : ℚ) ≤ [(1330 : ℚ), 1332, 1334, 1336].getD 0 0 ∧ (0 : ℕ) = 0 :=
  have hs : List.Sorted (· ≤ ·) [(1330 : ℚ), 1332, 1334, 1336] := by
    norm_num [List.sorted_cons]
  have hf : find_index [1330, 1332, 1334, 1336] 1000 = some 0 := by
    norm_num [find_index, argmin, npAbs]
  have hq : (1000 : ℚ) ≤ [(1330 : ℚ), 1332, 1334, 1336].getD 0 0 := by norm_num
  ⟨hs, hf, hq, find_index_nearest.2.1 _ _ _ hs hf hq⟩

/-- C2: invoking `find_index` on an empty timestamps sequence fails for
every query value: `np.argmin` on an empty array raises (the spec's
`EmptySequenceError`), modelled by the `none` result. -/
theorem find_index_empty (x : ℚ) : find_index [] x = none := rfl

/-- C8 counterexample: on timestamps `[1333.0, 1333.5, 1334.0, 1334.5,
1335.0]` the end query `1334.9` is nearest to `1335.0` (distance `0.1`), so
`find_index` returns index 4, not the index 3 stated by the claim. -/
theorem frame_range_end_counterexample :
    find_index [1333, 1333.5, 1334, 1334.5, 1335] 1334.9 = some 4 ∧
    ¬ find_index [1333, 1333.5, 1334, 1334.5, 1335] 1334.9 = some 3 := by
  constructor <;> norm_num [find_index, argmin, npAbs]

/-- C8 amended: for timestamps `[1333.0, 1333.5, 1334.0, 1334.5, 1335.0]`
the start query `1333.9` yields index 2 and the end query `1334.9` yields
index 4, selecting the 3-element inclusive slice `[1334.0, 1334.5, 1335.0]`;
the downstream consumer (`make_animation`) treats the end index inclusively,
with frame count `end - start + 1 = 3`. -/
theorem frame_range_composition :
    find_index [1333, 1333.5, 1334, 1334.5, 1335] 1333.9 = some 2 ∧
    find_index [1333, 1333.5, 1334, 1334.5, 1335] 1334.9 = some 4 ∧
    num_frames 2 4 = 3 ∧
    inclusiveSlice [1333, 1333.5, 1334, 1334.5, 1335] 2 4 = [1334, 1334.5, 1335] := by
  refine ⟨?_, ?_, rfl, rfl⟩ <;> norm_num [find_index, argmin, npAbs]

/-! ### Assignment (`tableSet`) lemmas -/

theorem keys_map_replace (k : String) (c : Column) (t : TypedTable) :
    (t.map fun p => if p.1 = k then (k, c) else p).map Prod.fst =
      t.map Prod.fst := by
  induction t with
  | nil => rfl
  | cons p tl ih =>
    obtain ⟨k₀, c₀⟩ := p
    by_cases hp : k₀ = k
    · subst hp; simpa using ih
    · simpa [hp] using ih

theorem tableSet_keys (t : TypedTable) (k : String) (c : Column) :
    (tableSet t k c).map Prod.fst = insKey (t.map Prod.fst) k := by
  unfold tableSet insKey
  by_cases hk : k ∈ t.map Prod.fst
  · rw [if_pos hk, if_pos hk, keys_map_replace]
  · rw [if_neg hk, if_neg hk, List.map_append]; rfl

theorem mem_tableSet (t : TypedTable) (k : String) (c : Column)
    (p : String × Column) (hp : p ∈ tableSet t k c) : p = (k, c) ∨ p ∈ t := by
  unfold tableSet at hp
  by_cases hk : k ∈ t.map Prod.fst
  · rw [if_pos hk] at hp
    obtain ⟨q, hq, hqe⟩ := List.mem_map.mp hp
    by_cases hq1 : q.1 = k
    · left; rw [← hqe, if_pos hq1]
    · right; rw [← hqe, if_neg hq1]; exact hq
  · rw [if_neg hk] at hp
    rcases List.mem_append.mp hp with h | h
    · right; exact h
    · left; simpa using h

theorem lookup_map_replace (k : String) (c : Column) :
    ∀ t : TypedTable, k ∈ t.map Prod.fst →
      (t.map fun p => if p.1 = k then (k, c) else p).lookup k = some c := by
  intro t
  induction t with
  | nil => intro h; simp at h
  | cons p tl ih =>
    intro hmem
    obtain ⟨k₀, c₀⟩ := p
    by_cases hp : k₀ = k
    · subst hp
      simp [List.lookup_cons]
    · have hmem' : k ∈ tl.map Prod.fst := by
        simp only [List.map_cons, List.mem_cons] at hmem
        rcases hmem with h | h
        · exact absurd h.symm hp
        · exact h
      have hne : k ≠ k₀ := fun he => hp he.symm
      simp [List.lookup_cons, hp, beq_eq_false_iff_ne.mpr hne, ih hmem']

theorem lookup_map_replace_ne (k kq : String) (c : Column) (hne : kq ≠ k) :
    ∀ t : TypedTable,
      (t.map fun p => if p.1 = k then (k, c) else p).lookup kq = t.lookup kq := by
  intro t
  induction t with
  | nil => simp
  | cons p tl ih =>
    obtain ⟨k₀, c₀⟩ := p
    by_cases hp : k₀ = k
    · subst hp
      simp [List.lookup_cons, beq_eq_false_iff_ne.mpr hne, ih]
    · simp only [List.map_cons, if_neg hp]
      cases h : (kq == k₀) <;> simp [List.lookup_cons, h, ih]

theorem lookup_eq_none_of_not_mem_keys {β : Type} (k : String) :
    ∀ t : List (String × β), k ∉ t.map Prod.fst → t.lookup k = none := by
  intro t
  induction t with
  | nil => intro _; rfl
  | cons p tl ih =>
    intro h
    obtain ⟨k₀, c₀⟩ := p
    simp only [List.map_cons, List.mem_cons, not_or] at h
    simp [List.lookup_cons, beq_eq_false_iff_ne.mpr h.1, ih h.2]

theorem lookup_append_singleton (k : String) (c : Column) :
    ∀ t : TypedTable, k ∉ t.map Prod.fst → (t ++ [(k, c)]).lookup k = some c := by
  intro t
  induction t with
  | nil => intro _; simp [List.lookup_cons]
  | cons p tl ih =>
    intro h
    obtain ⟨k₀, c₀⟩ := p
    simp only [List.map_cons, List.mem_cons, not_or] at h
    simp [List.lookup_cons, beq_eq_false_iff_ne.mpr h.1, ih h.2]

theorem lookup_append_singleton_ne (k kq : String) (c : Column) (hne : kq ≠ k) :
    ∀ t : TypedTable, (t ++ [(k, c)]).lookup kq = t.lookup kq := by
  intro t
  induction t with
  | nil => simp [List.lookup_cons, beq_eq_false_iff_ne.mpr hne]
  | cons p tl ih =>
    obtain ⟨k₀, c₀⟩ := p
    cases h : (kq == k₀) <;> simp [List.lookup_cons, h, ih]

theorem tableSet_lookup_self (t : TypedTable) (k : String) (c : Column) :
    (tableSet t k c).lookup k = some c := by
  unfold tableSet
  by_cases hk : k ∈ t.map Prod.fst
  · rw [if_pos hk]; exact lookup_map_replace k c t hk
  · rw [if_neg hk]; exact lookup_append_singleton k c t hk

theorem tableSet_lookup_ne (t : TypedTable) (k kq : String) (c : Column)
    (hne : kq ≠ k) : (tableSet t k c).lookup kq = t.lookup kq := by
  unfold tableSet
  by_cases hk : k ∈ t.map Prod.fst
  · rw [if_pos hk]; exact lookup_map_replace_ne k kq c hne t
  · rw [if_neg hk]; exact lookup_append_singleton_ne k kq c hne t

/-! ### Key-accumulation (`insKey`/`addKeys`) lemmas -/

theorem insKey_length_le (ks : List String) (k : String) :
    (insKey ks k).length ≤ ks.length + 1 := by
  unfold insKey; split
  · omega
  · simp

theorem mem_insKey_self (ks : List String) (k : String) : k ∈ insKey ks k := by
  unfold insKey; split
  · assumption
  · simp

theorem mem_insKey_of_mem (ks : List String) (k m : String) (h : m ∈ ks) :
    m ∈ insKey ks k := by
  unfold insKey; split
  · exact h
  · simp [h]

theorem addKeys_length_le (ns : List String) :
    ∀ ks : List String, (addKeys ks ns).length ≤ ks.length + ns.length := by
  induction ns with
  | nil => intro ks; simp [addKeys]
  | cons n ns ih =>
    intro ks
    have h1 : (insKey ks n).length ≤ ks.length + 1 := insKey_length_le ks n
    have h2 := ih (insKey ks n)
    show (addKeys (insKey ks n) ns).length ≤ ks.length + (n :: ns).length
    simp only [List.length_cons]
    omega

theorem addKeys_length_lt (ns : List String) :
    ∀ ks : List String, (¬ ns.Nodup ∨ ∃ m ∈ ns, m ∈ ks) →
      (addKeys ks ns).length < ks.length + ns.length := by
  induction ns with
  | nil =>
    intro ks h
    rcases h with h | ⟨m, hm, _⟩
    · exact absurd List.nodup_nil h
    · simp at hm
  | cons n ns ih =>
    intro ks h
    have hlen : (insKey ks n).length ≤ ks.length + 1 := insKey_length_le ks n
    show (addKeys (insKey ks n) ns).length < ks.length + (n :: ns).length
    simp only [List.length_cons]
    rcases h with h | ⟨m, hm, hks⟩
    · by_cases hn : n ∈ ns
      · have := ih (insKey ks n) (Or.inr ⟨n, hn, mem_insKey_self ks n⟩)
        omega
      · have hnd : ¬ ns.Nodup := by
          intro hc
          exact h (List.nodup_cons.mpr ⟨hn, hc⟩)
        have := ih (insKey ks n) (Or.inl hnd)
        omega
    · rcases List.mem_cons.mp hm with rfl | hm'
      · have hins : insKey ks m = ks := by unfold insKey; rw [if_pos hks]
        have hle := addKeys_length_le ns (insKey ks m)
        rw [hins] at hle
        show (addKeys (insKey ks m) ns).length < ks.length + (ns.length + 1)
        rw [hins]
        omega
      · have := ih (insKey ks n) (Or.inr ⟨m, hm', mem_insKey_of_mem ks n m hks⟩)
        omega

theorem addKeys_eq_append (ns : List String) :
    ∀ ks : List String, ns.Nodup → (∀ m ∈ ns, m ∉ ks) →
      addKeys ks ns = ks ++ ns := by
  induction ns with
  | nil => intro ks _ _; simp [addKeys]
  | cons n ns ih =>
    intro ks hnd hdisj
    rw [List.nodup_cons] at hnd
    have hn : n ∉ ks := hdisj n (List.mem_cons_self n ns)
    have h1 : insKey ks n = ks ++ [n] := by unfold insKey; rw [if_neg hn]
    have h2 : ∀ m ∈ ns, m ∉ ks ++ [n] := by
      intro m hm
      simp only [List.mem_append, List.mem_singleton, not_or]
      exact ⟨hdisj m (List.mem_cons_of_mem n hm), fun he => hnd.1 (he ▸ hm)⟩
    show addKeys (insKey ks n) ns = ks ++ n :: ns
    rw [h1, ih (ks ++ [n]) hnd.2 h2, List.append_assoc]
    rfl

/-! ### mapExcept lemmas -/

theorem mapExcept_ok_length {α β : Type} (g : α → Except CoerceError β) :
    ∀ (l : List α) (res : List β), mapExcept g l = .ok res →
      res.length = l.length := by
  intro l
  induction l with
  | nil =>
    intro res h
    injection h with h
    subst h
    rfl
  | cons a l ih =>
    intro res h
    simp only [mapExcept] at h
    cases hg : g a with
    | error e => rw [hg] at h; simp at h
    | ok b =>
      rw [hg] at h
      dsimp only at h
      cases hl : mapExcept g l with
      | error e => rw [hl] at h; simp at h
      | ok bs =>
        rw [hl] at h
        dsimp only at h
        injection h with h
        subst h
        simp [ih bs hl]

theorem mapExcept_ok_getD {α β : Type} (g : α → Except CoerceError β)
    (dα : α) (dβ : β) :
    ∀ (l : List α) (res : List β), mapExcept g l = .ok res →
      ∀ i, i < l.length → g (l.getD i dα) = .ok (res.getD i dβ) := by
  intro l
  induction l with
  | nil => intro res h i hi; simp at hi
  | cons a l ih =>
    intro res h i hi
    simp only [mapExcept] at h
    cases hg : g a with
    | error e => rw [hg] at h; simp at h
    | ok b =>
      rw [hg] at h
      dsimp only at h
      cases hl : mapExcept g l with
      | error e => rw [hl] at h; simp at h
      | ok bs =>
        rw [hl] at h
        dsimp only at h
        injection h with h
        subst h
        cases i with
        | zero => simpa using hg
        | succ m =>
          have hm : m < l.length := by simpa using hi
          simpa using ih bs hl m hm

theorem mapExcept_error {α β : Type} (g : α → Except CoerceError β) :
    ∀ (l : List α) (e : CoerceError), mapExcept g l = .error e →
      ∃ a ∈ l, g a = .error e := by
  intro l
  induction l with
  | nil => intro e h; simp [mapExcept] at h
  | cons a l ih =>
    intro e h
    simp only [mapExcept] at h
    cases hg : g a with
    | error e' =>
      rw [hg] at h
      dsimp only at h
      injection h with h
      subst h
      exact ⟨a, List.mem_cons_self a l, hg⟩
    | ok b =>
      rw [hg] at h
      dsimp only at h
      cases hl : mapExcept g l with
      | error e' =>
        rw [hl] at h
        dsimp only at h
        injection h with h
        subst h
        obtain ⟨a', ha', hga'⟩ := ih _ hl
        exact ⟨a', List.mem_cons_of_mem a ha', hga'⟩
      | ok bs => rw [hl] at h; simp at h

theorem mapExcept_ok_of_all {α β : Type} (g : α → Except CoerceError β) :
    ∀ l : List α, (∀ a ∈ l, ∃ b, g a = .ok b) →
      ∃ res, mapExcept g l = .ok res := by
  intro l
  induction l with
  | nil => intro _; exact ⟨[], rfl⟩
  | cons a l ih =>
    intro h
    obtain ⟨b, hb⟩ := h a (List.mem_cons_self a l)
    obtain ⟨bs, hbs⟩ := ih fun a' ha' => h a' (List.mem_cons_of_mem a ha')
    exact ⟨b :: bs, by simp [mapExcept, hb, hbs]⟩

/-! ### buildColumn / buildEntry lemmas -/

theorem buildColumn_U (n : ℕ) (col : String) (data : List RawRecord) :
    buildColumn (.U n) col data =
      .ok (.colU n (data.map fun r => truncate (pyStr (r.get col)) n)) := rfl

theorem buildColumn_size (d : NpDtype) (col : String) (data : List RawRecord)
    (c : Column) (h : buildColumn d col data = .ok c) :
    c.size = data.length := by
  cases d with
  | U n =>
    rw [buildColumn_U] at h
    injection h with h
    subst h
    simp [Column.size]
  | float =>
    simp only [buildColumn] at h
    split at h
    · simp at h
    · rename_i cells hm
      injection h with h
      subst h
      simp [Column.size, mapExcept_ok_length _ data cells hm]

theorem buildEntry_size (f : FieldDesc) (data : List RawRecord) (c : Column)
    (h : buildEntry f data = .ok c) : c.size = data.length := by
  unfold buildEntry at h
  split at h
  · simp at h
  · exact buildColumn_size _ (pyStrip f.colname) data c h

/-! ### buildCols lemmas -/

theorem buildCols_keys (data : List RawRecord) :
    ∀ (fs : List FieldDesc) (acc t : TypedTable),
      buildCols fs data acc = .ok t →
      t.map Prod.fst =
        addKeys (acc.map Prod.fst) (fs.map fun f => (pyStrip f.colname)) := by
  intro fs
  induction fs with
  | nil =>
    intro acc t h
    injection h with h
    subst h
    rfl
  | cons f fs ih =>
    intro acc t h
    simp only [buildCols] at h
    split at h
    · simp at h
    · rename_i c hc
      calc t.map Prod.fst
          = addKeys ((tableSet acc (pyStrip f.colname) c).map Prod.fst)
              (fs.map fun f => (pyStrip f.colname)) := ih _ t h
        _ = addKeys (insKey (acc.map Prod.fst) (pyStrip f.colname))
              (fs.map fun f => (pyStrip f.colname)) := by rw [tableSet_keys]
        _ = addKeys (acc.map Prod.fst)
              ((f :: fs).map fun f => (pyStrip f.colname)) := rfl

theorem buildCols_lookup (data : List RawRecord) :
    ∀ (fs : List FieldDesc) (acc t : TypedTable),
      buildCols fs data acc = .ok t → ∀ k : String,
      t.lookup k =
        match lastNamed k fs with
        | some f => (buildEntry f data).toOption
        | none => acc.lookup k := by
  intro fs
  induction fs with
  | nil =>
    intro acc t h k
    injection h with h
    subst h
    rfl
  | cons f fs ih =>
    intro acc t h k
    simp only [buildCols] at h
    split at h
    · simp at h
    · rename_i c hc
      have hrec := ih (tableSet acc (pyStrip f.colname) c) t h k
      simp only [lastNamed]
      cases hl : lastNamed k fs with
      | some g =>
        rw [hl] at hrec
        exact hrec
      | none =>
        rw [hl] at hrec
        have hrec' : t.lookup k = (tableSet acc (pyStrip f.colname) c).lookup k := hrec
        dsimp only
        by_cases hk : (pyStrip f.colname) = k
        · rw [if_pos hk, hrec', hk, tableSet_lookup_self]
          dsimp only
          rw [hc]
          rfl
        · rw [if_neg hk, hrec',
            tableSet_lookup_ne acc (pyStrip f.colname) k c fun he => hk he.symm]

theorem buildCols_sizes (data : List RawRecord) :
    ∀ (fs : List FieldDesc) (acc t : TypedTable),
      buildCols fs data acc = .ok t →
      (∀ p ∈ acc, Column.size p.2 = data.length) →
      ∀ p ∈ t, Column.size p.2 = data.length := by
  intro fs
  induction fs with
  | nil =>
    intro acc t h hacc
    injection h with h
    subst h
    exact hacc
  | cons f fs ih =>
    intro acc t h hacc
    simp only [buildCols] at h
    split at h
    · simp at h
    · rename_i c hc
      refine ih _ t h ?_
      intro p hp
      rcases mem_tableSet acc (pyStrip f.colname) c p hp with rfl | hpacc
      · exact buildEntry_size f data c hc
      · exact hacc p hpacc

theorem buildCols_ok_of_entries (data : List RawRecord) :
    ∀ (fs : List FieldDesc) (acc : TypedTable),
      (∀ f ∈ fs, ∃ c, buildEntry f data = .ok c) →
      ∃ t, buildCols fs data acc = .ok t := by
  intro fs
  induction fs with
  | nil => intro acc _; exact ⟨acc, rfl⟩
  | cons f fs ih =>
    intro acc h
    obtain ⟨c, hc⟩ := h f (List.mem_cons_self f fs)
    obtain ⟨t, ht⟩ :=
      ih (tableSet acc (pyStrip f.colname) c) fun g hg => h g (List.mem_cons_of_mem f hg)
    exact ⟨t, by simp [buildCols, hc, ht]⟩

theorem buildCols_entries_ok (data : List RawRecord) :
    ∀ (fs : List FieldDesc) (acc t : TypedTable),
      buildCols fs data acc = .ok t →
      ∀ f ∈ fs, ∃ c, buildEntry f data = .ok c := by
  intro fs
  induction fs with
  | nil => intro acc t _ f hf; simp at hf
  | cons g fs ih =>
    intro acc t h f hf
    simp only [buildCols] at h
    split at h
    · simp at h
    · rename_i c hc
      rcases List.mem_cons.mp hf with rfl | hf'
      · exact ⟨c, hc⟩
      · exact ih _ t h f hf'

theorem RawRecord.get_eq_null (r : RawRecord) (k : String)
    (h : k ∉ r.map Prod.fst) : RawRecord.get r k = .null := by
  unfold RawRecord.get
  rw [lookup_eq_none_of_not_mem_keys k r h]
  rfl

theorem buildCols_error_tm (data : List RawRecord) :
    ∀ (fs : List FieldDesc) (acc : TypedTable) (f : FieldDesc),
      f ∈ fs → buildEntry f data = .error .typeMappingError →
      (∀ g ∈ fs, buildEntry g data ≠ .error .valueCoercionError) →
      buildCols fs data acc = .error .typeMappingError := by
  intro fs
  induction fs with
  | nil => intro acc f hf _ _; simp at hf
  | cons g fs ih =>
    intro acc f hf hferr hnovc
    simp only [buildCols]
    cases hg : buildEntry g data with
    | error e =>
      have hne : e ≠ .valueCoercionError := fun he =>
        hnovc g (List.mem_cons_self g fs) (by rw [hg, he])
      have he : e = .typeMappingError := by cases e <;> simp_all
      simp [hg, he]
    | ok c =>
      have hf' : f ∈ fs := by
        rcases List.mem_cons.mp hf with rfl | h
        · rw [hg] at hferr; simp at hferr
        · exact h
      simp only [hg]
      exact ih (tableSet acc (pyStrip g.colname) c) f hf' hferr
        fun g' hg' => hnovc g' (List.mem_cons_of_mem g hg')

/-! ### lastNamed lemmas -/

theorem lastNamed_eq_none (k : String) :
    ∀ gs : List FieldDesc, k ∉ gs.map (fun f => (pyStrip f.colname)) →
      lastNamed k gs = none := by
  intro gs
  induction gs with
  | nil => intro _; rfl
  | cons g gs ih =>
    intro h
    simp only [List.map_cons, List.mem_cons, not_or] at h
    simp [lastNamed, ih h.2, show (pyStrip g.colname) ≠ k from fun hc => h.1 hc.symm]

theorem truncate_length_le (s : String) (n : ℕ) : (truncate s n).length ≤ n := by
  have h : (truncate s n).length = (s.toList.take n).length := rfl
  rw [h, List.length_take]
  omega

theorem truncate_length_eq (s : String) (n : ℕ) (h : n ≤ s.length) :
    (truncate s n).length = n := by
  have h1 : (truncate s n).length = (s.toList.take n).length := rfl
  have h2 : s.toList.length = s.length := rfl
  rw [h1, List.length_take]
  omega

theorem containsSub_of_varcharSearch :
    ∀ cs : List Char, ∀ n : ℕ, varcharSearch cs = some n →
      containsSub "varchar".toList cs = true := by
  intro cs
  induction cs with
  | nil => intro n h; simp [varcharSearch] at h
  | cons c cs ih =>
    intro n h
    simp only [varcharSearch] at h
    cases hm : varcharMatchAt (c :: cs) with
    | some m =>
      have hpre : "varchar(".toList.isPrefixOf (c :: cs) = true := by
        by_contra hc
        unfold varcharMatchAt at hm
        rw [if_neg (by simpa using hc)] at hm
        simp at hm
      have hpre7 : "varchar".toList.isPrefixOf (c :: cs) = true := by
        rw [ List.isPrefixOf_iff_prefix] at hpre ⊢
        refine List.IsPrefix.trans ?_ hpre
        rw [← List.isPrefixOf_iff_prefix]
        decide
      have hs : containsSub "varchar".toList (c :: cs) =
          ("varchar".toList.isPrefixOf (c :: cs) ||
            containsSub "varchar".toList cs) := rfl
      rw [hs, hpre7, Bool.true_or]
    | none =>
      rw [hm] at h
      dsimp only at h
      have hs : containsSub "varchar".toList (c :: cs) =
          ("varchar".toList.isPrefixOf (c :: cs) ||
            containsSub "varchar".toList cs) := rfl
      rw [hs, ih n h, Bool.or_true]

theorem resolveAtype_varchar (atype : String) (n : ℕ)
    (hsearch : varcharSearch atype.toList = some n) :
    resolveAtype atype = .ok (.U n) := by
  have hc : strContains atype "varchar" = true :=
    containsSub_of_varcharSearch atype.toList n hsearch
  unfold resolveAtype
  rw [if_pos hc, hsearch]

theorem buildEntry_ok_of_resolve_nil (f : FieldDesc) (d : NpDtype)
    (hd : resolveAtype f.datatype = .ok d) : ∃ c, buildEntry f [] = .ok c := by
  unfold buildEntry
  rw [hd]
  cases d with
  | U n => exact ⟨_, rfl⟩
  | float => exact ⟨_, rfl⟩

theorem lastNamed_of_nodup :
    ∀ schema : List FieldDesc,
      (schema.map fun f => (pyStrip f.colname)).Nodup →
      ∀ f ∈ schema, lastNamed (pyStrip f.colname) schema = some f := by
  intro schema
  induction schema with
  | nil => intro _ f hf; simp at hf
  | cons g gs ih =>
    intro hnd f hf
    simp only [List.map_cons, List.nodup_cons] at hnd
    rcases List.mem_cons.mp hf with rfl | hf'
    · have hnone : lastNamed (pyStrip f.colname) gs = none :=
        lastNamed_eq_none (pyStrip f.colname) gs hnd.1
      simp [lastNamed, hnone]
    · have hsome := ih hnd.2 f hf'
      simp [lastNamed, hsome]

/-! ### Claim theorems for the TableCoercer -/

/-- C3: for a schema entry whose `declared_type` textually contains
`varchar(N)` with `N` a positive integer (the leftmost regex match),
`json_to_table` produces a fixed-capacity text column of width exactly `N`;
every value of the column, without exception, is stored truncated to its
first `N` characters (the implicit truncation of numpy's fixed-width `U<N>`
storage), a single consistent truncation behaviour, and a stored value
always has length at most `N`, exactly `N` when the rendered value is at
least that long. -/
theorem varchar_width (atype : String) (n : ℕ)
    (hsearch : varcharSearch atype.toList = some n) (_hpos : 0 < n)
    (name descr : String) (data : List RawRecord) :
    resolveAtype atype = .ok (.U n) ∧
    json_to_table [⟨name, atype, descr⟩] data =
      .ok [((pyStrip name),
        .colU n (data.map fun r => truncate (pyStr (r.get (pyStrip name))) n))] ∧
    (∀ r ∈ data, (truncate (pyStr (r.get (pyStrip name))) n).length ≤ n) ∧
    (∀ s : String, n ≤ s.length → (truncate s n).length = n) := by
  have hres : resolveAtype atype = .ok (.U n) := resolveAtype_varchar atype n hsearch
  have hbe : buildEntry ⟨name, atype, descr⟩ data =
      .ok (.colU n (data.map fun r => truncate (pyStr (r.get (pyStrip name))) n)) := by
    unfold buildEntry
    dsimp only
    rw [hres]
    rfl
  refine ⟨hres, ?_, ?_, ?_⟩
  · simp [json_to_table, buildCols, hbe, tableSet]
  · intro r _
    exact truncate_length_le _ n
  · intro s hs
    exact truncate_length_eq s n hs

/-- Witness for C3 at the spec's example `varchar(12)`. -/
theorem varchar_width_witness :
    varcharSearch "varchar(12)".toList = some 12 ∧ 0 < 12 ∧
    resolveAtype "varchar(12)" = .ok (.U 12) :=
  have h1 : varcharSearch "varchar(12)".toList = some 12 := by decide
  have h2 : 0 < 12 := by decide
  ⟨h1, h2, (varchar_width "varchar(12)" 12 h1 h2 "col" "" []).1⟩

/-- C4: for valid inputs — a schema with distinct stripped names and
resolvable declared types, any row sequence — a successful `json_to_table`
returns a table with exactly `len(schema)` columns, in schema order under
whitespace-stripped names, each column of length exactly `len(rows)`; and
for an empty row sequence the table exists and carries the full column set
with zero-length columns. -/
theorem schema_fidelity :
    (∀ (schema : List FieldDesc) (data : List RawRecord) (t : TypedTable),
        (schema.map fun f => (pyStrip f.colname)).Nodup →
        json_to_table schema data = .ok t →
        t.length = schema.length ∧
        t.map Prod.fst = (schema.map fun f => (pyStrip f.colname)) ∧
        ∀ p ∈ t, Column.size p.2 = data.length) ∧
    (∀ schema : List FieldDesc,
        (schema.map fun f => (pyStrip f.colname)).Nodup →
        (∀ f ∈ schema, ∃ d, resolveAtype f.datatype = .ok d) →
        ∃ t, json_to_table schema [] = .ok t ∧
          t.map Prod.fst = (schema.map fun f => (pyStrip f.colname)) ∧
          ∀ p ∈ t, Column.size p.2 = 0) := by
  constructor
  · intro schema data t hnd hok
    have hkeys := buildCols_keys data schema [] t hok
    simp only [List.map_nil] at hkeys
    rw [addKeys_eq_append _ [] hnd (fun m _ => List.not_mem_nil m)] at hkeys
    simp only [List.nil_append] at hkeys
    refine ⟨?_, hkeys, ?_⟩
    · have hlen := congrArg List.length hkeys
      simpa using hlen
    · exact buildCols_sizes data schema [] t hok (by simp)
  · intro schema hnd hres
    have hentries : ∀ f ∈ schema, ∃ c, buildEntry f [] = .ok c := by
      intro f hf
      obtain ⟨d, hd⟩ := hres f hf
      exact buildEntry_ok_of_resolve_nil f d hd
    obtain ⟨t, ht⟩ := buildCols_ok_of_entries [] schema [] hentries
    have hkeys := buildCols_keys [] schema [] t ht
    simp only [List.map_nil] at hkeys
    rw [addKeys_eq_append _ [] hnd (fun m _ => List.not_mem_nil m)] at hkeys
    simp only [List.nil_append] at hkeys
    exact ⟨t, ht, hkeys, buildCols_sizes [] schema [] t ht (by simp)⟩

/-- Witness for C4 on a one-column `real` schema and a one-row record. -/
theorem schema_fidelity_witness :
    (([(⟨"a", "real", ""⟩ : FieldDesc)].map fun f => (pyStrip f.colname)).Nodup) ∧
    json_to_table [⟨"a", "real", ""⟩] [[("a", Scalar.num 2)]] =
      .ok [("a", .colFloat [.val 2])] ∧
    ([("a", Column.colFloat [.val 2])] : TypedTable).length =
      [(⟨"a", "real", ""⟩ : FieldDesc)].length :=
  have h1 : (([(⟨"a", "real", ""⟩ : FieldDesc)].map fun f => (pyStrip f.colname)).Nodup) := by
    simp
  have h2 : json_to_table [⟨"a", "real", ""⟩] [[("a", Scalar.num 2)]] =
      .ok [("a", .colFloat [.val 2])] := rfl
  ⟨h1, h2, (schema_fidelity.1 _ _ _ h1 h2).1⟩

/-- C9: the fill value for a missing key is the `None` sentinel coerced
through the column's storage type: a `real` column stores NaN, while a
`varchar(N)` column stores `str(None) = "None"` truncated to `N` characters
(`"No"` for `N = 2 < 4`), so numeric and text columns receive different fill
values from the same sentinel. -/
theorem null_fill_values :
    toFloatCell .null = .ok .nan ∧
    pyStr .null = "None" ∧
    (∀ n : ℕ, truncate (pyStr .null) n = String.mk ("None".toList.take n)) ∧
    json_to_table [⟨"a", "real", "d"⟩] [[("b", .num 1)]] =
      .ok [("a", .colFloat [.nan])] ∧
    json_to_table [⟨"v", "varchar(12)", "d"⟩] [[("b", .num 1)]] =
      .ok [("v", .colU 12 ["None"])] ∧
    json_to_table [⟨"w", "varchar(2)", "d"⟩] [[("b", .num 1)]] =
      .ok [("w", .colU 2 ["No"])] :=
  ⟨rfl, rfl, fun _ => rfl, rfl, rfl, rfl⟩

/-- C10: duplicate stripped names in the schema raise no error (success
depends only on each entry resolving and coercing, never on name clashes);
the later entry silently overwrites the earlier column, so the table keeps
one column per distinct stripped name (`addKeys`, first-occurrence order),
each name carrying the storage type and the values of the *last* entry so
named, and with a duplicate present the column count is strictly less than
`len(schema)`. -/
theorem duplicate_names :
    (∀ (schema : List FieldDesc) (data : List RawRecord),
        (∀ f ∈ schema, ∃ c, buildEntry f data = .ok c) →
        ∃ t, json_to_table schema data = .ok t) ∧
    (∀ (schema : List FieldDesc) (data : List RawRecord) (t : TypedTable),
        json_to_table schema data = .ok t →
        t.map Prod.fst = addKeys [] (schema.map fun f => (pyStrip f.colname)) ∧
        ∀ k : String, t.lookup k =
          match lastNamed k schema with
          | some f => (buildEntry f data).toOption
          | none => none) ∧
    (∀ (schema : List FieldDesc) (data : List RawRecord) (t : TypedTable),
        ¬ (schema.map fun f => (pyStrip f.colname)).Nodup →
        json_to_table schema data = .ok t →
        t.length < schema.length) := by
  refine ⟨?_, ?_, ?_⟩
  · intro schema data h
    exact buildCols_ok_of_entries data schema [] h
  · intro schema data t hok
    constructor
    · have hkeys := buildCols_keys data schema [] t hok
      simpa using hkeys
    · intro k
      have hl := buildCols_lookup data schema [] t hok k
      cases hn : lastNamed k schema with
      | some f => rw [hn] at hl; exact hl
      | none => rw [hn] at hl; simpa using hl
  · intro schema data t hnd hok
    have hkeys := buildCols_keys data schema [] t hok
    simp only [List.map_nil] at hkeys
    have hlt := addKeys_length_lt (schema.map fun f => (pyStrip f.colname)) []
      (Or.inl hnd)
    have h1 : t.length = (t.map Prod.fst).length := (List.length_map t Prod.fst).symm
    rw [h1, hkeys]
    simpa using hlt

/-- Witness for C10 on a schema with the stripped name `"a"` declared twice;
the varchar entry, being last, provides the surviving column. -/
theorem duplicate_names_witness :
    ¬ (([⟨"a", "real", ""⟩, ⟨"a", "varchar(3)", ""⟩] : List FieldDesc).map
        fun f => (pyStrip f.colname)).Nodup ∧
    json_to_table [⟨"a", "real", ""⟩, ⟨"a", "varchar(3)", ""⟩] [] =
      .ok [("a", .colU 3 [])] ∧
    ([("a", Column.colU 3 [])] : TypedTable).length <
      ([⟨"a", "real", ""⟩, ⟨"a", "varchar(3)", ""⟩] : List FieldDesc).length :=
  have h1 : ¬ (([⟨"a", "real", ""⟩, ⟨"a", "varchar(3)", ""⟩] : List FieldDesc).map
      fun f => (pyStrip f.colname)).Nodup := by decide
  have h2 : json_to_table [⟨"a", "real", ""⟩, ⟨"a", "varchar(3)", ""⟩] [] =
      .ok [("a", .colU 3 [])] := rfl
  ⟨h1, h2, duplicate_names.2.2 _ _ _ h1 h2⟩

/-- C7: a schema entry whose declared type contains no well-formed
varchar marker, is not the literal `"real"`, and is not a resolvable native
dtype name resolves to `TypeMappingError`; and if any schema entry resolves
to `TypeMappingError` while no entry fails value coercion, `json_to_table`
fails with `TypeMappingError` — the result is an error, never a partial
table. -/
theorem type_mapping_error :
    (∀ atype : String, varcharSearch atype.toList = none → atype ≠ "real" →
        atype ∉ npNativeTypes → resolveAtype atype = .error .typeMappingError) ∧
    (∀ (schema : List FieldDesc) (data : List RawRecord) (f : FieldDesc),
        f ∈ schema → resolveAtype f.datatype = .error .typeMappingError →
        (∀ g ∈ schema, buildEntry g data ≠ .error .valueCoercionError) →
        json_to_table schema data = .error .typeMappingError) ∧
    (∀ (schema : List FieldDesc) (data : List RawRecord) (e : CoerceError)
        (t : TypedTable),
        json_to_table schema data = .error e →
        json_to_table schema data ≠ .ok t) := by
  refine ⟨?_, ?_, ?_⟩
  · intro atype hsearch hreal hnative
    unfold resolveAtype
    by_cases hc : strContains atype "varchar" = true
    · rw [if_pos hc, hsearch]
    · rw [if_neg hc, if_neg hreal, if_neg hnative]
  · intro schema data f hf hres hnovc
    have hferr : buildEntry f data = .error .typeMappingError := by
      unfold buildEntry
      rw [hres]
    exact buildCols_error_tm data schema [] f hf hferr hnovc
  · intro schema data e t he hok
    rw [he] at hok
    exact Except.noConfusion hok

/-- Witness for C7 on the unresolvable declared type `"bogus"`. -/
theorem type_mapping_error_witness :
    (⟨"x", "bogus", ""⟩ : FieldDesc) ∈ ([⟨"x", "bogus", ""⟩] : List FieldDesc) ∧
    resolveAtype "bogus" = .error .typeMappingError ∧
    (∀ g ∈ ([⟨"x", "bogus", ""⟩] : List FieldDesc),
        buildEntry g [] ≠ .error .valueCoercionError) ∧
    json_to_table [⟨"x", "bogus", ""⟩] [] = .error .typeMappingError :=
  have h1 : (⟨"x", "bogus", ""⟩ : FieldDesc) ∈
      ([⟨"x", "bogus", ""⟩] : List FieldDesc) := List.mem_cons_self _ _
  have h2 : resolveAtype "bogus" = .error .typeMappingError := rfl
  have h3 : ∀ g ∈ ([⟨"x", "bogus", ""⟩] : List FieldDesc),
      buildEntry g [] ≠ .error .valueCoercionError := by
    intro g hg
    have hg' : g = ⟨"x", "bogus", ""⟩ := by
      rcases List.mem_cons.mp hg with h | h
      · exact h
      · simp at h
    subst hg'
    intro hcontra
    have h0 : buildEntry (⟨"x", "bogus", ""⟩ : FieldDesc) [] =
        .error .typeMappingError := rfl
    rw [h0] at hcontra
    simp at hcontra
  ⟨h1, h2, h3, type_mapping_error.2.1 _ _ _ h1 h2 h3⟩

/-- C5: a row in which a declared (stripped) column name is absent gets
the `None` sentinel at that position: lookup of an absent key yields the
sentinel, the sentinel converts without exception in both storage types, a
float-column failure can only come from a *present* unparseable string
value (never from a missing key), every built column has exactly one entry
per input row (nothing shifts), and through a full `json_to_table` the cell
at a missing row/column position is the fill value (`"None"` truncated for
`varchar(N)`, NaN for `real`). -/
theorem missing_key_fill :
    (∀ (r : RawRecord) (k : String), k ∉ r.map Prod.fst →
        RawRecord.get r k = .null) ∧
    toFloatCell .null = .ok .nan ∧
    (∀ (col : String) (data : List RawRecord) (e : CoerceError),
        buildColumn .float col data = .error e →
        ∃ r ∈ data, ∃ s, r.lookup col = some (.str s) ∧ parseFloat? s = none) ∧
    (∀ (d : NpDtype) (col : String) (data : List RawRecord) (c : Column),
        buildColumn d col data = .ok c → c.size = data.length) ∧
    (∀ (schema : List FieldDesc) (data : List RawRecord) (t : TypedTable),
        (schema.map fun f => (pyStrip f.colname)).Nodup →
        json_to_table schema data = .ok t →
        ∀ f ∈ schema, ∀ i, i < data.length →
          (pyStrip f.colname) ∉ (data.getD i []).map Prod.fst →
          (∀ n : ℕ, resolveAtype f.datatype = .ok (.U n) →
            ∃ vs, t.lookup (pyStrip f.colname) = some (.colU n vs) ∧
              vs.length = data.length ∧ vs.getD i "" = truncate "None" n) ∧
          (resolveAtype f.datatype = .ok .float →
            ∃ cells, t.lookup (pyStrip f.colname) = some (.colFloat cells) ∧
              cells.length = data.length ∧ cells.getD i .nan = .nan)) := by
  refine ⟨?_, rfl, ?_, ?_, ?_⟩
  · intro r k h
    exact RawRecord.get_eq_null r k h
  · intro col data e h
    simp only [buildColumn] at h
    split at h
    · rename_i e' hm
      injection h with h
      subst h
      obtain ⟨r, hr, hg⟩ := mapExcept_error _ data _ hm
      unfold toFloatCell at hg
      cases hget : r.get col with
      | str s =>
        rw [hget] at hg
        dsimp only at hg
        cases hp : parseFloat? s with
        | some q => rw [hp] at hg; simp at hg
        | none =>
          refine ⟨r, hr, s, ?_, hp⟩
          unfold RawRecord.get at hget
          cases hlk : r.lookup col with
          | none => rw [hlk] at hget; simp at hget
          | some v => rw [hlk] at hget; simp at hget; rw [hget]
      | num q => rw [hget] at hg; simp at hg
      | null => rw [hget] at hg; simp at hg
    · simp at h
  · intro d col data c h
    exact buildColumn_size d col data c h
  · intro schema data t hnd hok f hf i hi hmiss
    have hln := lastNamed_of_nodup schema hnd f hf
    have hlk := buildCols_lookup data schema [] t hok (pyStrip f.colname)
    rw [hln] at hlk
    have hl : t.lookup (pyStrip f.colname) = (buildEntry f data).toOption := hlk
    have hnull : RawRecord.get (data.getD i []) (pyStrip f.colname) = .null :=
      RawRecord.get_eq_null _ _ hmiss
    constructor
    · intro n hres
      have hbe : buildEntry f data =
          .ok (.colU n (data.map fun r =>
            truncate (pyStr (r.get (pyStrip f.colname))) n)) := by
        unfold buildEntry
        rw [hres]
        rfl
      rw [hbe] at hl
      refine ⟨_, hl, by simp, ?_⟩
      rw [getD_map_of_lt (fun r => truncate (pyStr (RawRecord.get r (pyStrip f.colname))) n)
        data [] "" i hi, hnull]
      rfl
    · intro hres
      obtain ⟨c, hc⟩ := buildCols_entries_ok data schema [] t hok f hf
      have hc' : buildColumn .float (pyStrip f.colname) data = .ok c := by
        unfold buildEntry at hc
        rw [hres] at hc
        exact hc
      simp only [buildColumn] at hc'
      split at hc'
      · simp at hc'
      · rename_i cells hm
        injection hc' with hc'
        subst hc'
        have hbe : buildEntry f data = .ok (.colFloat cells) := by
          unfold buildEntry
          rw [hres]
          simp only [buildColumn]
          rw [hm]
        rw [hbe] at hl
        refine ⟨cells, hl, mapExcept_ok_length _ data cells hm, ?_⟩
        have hcell := mapExcept_ok_getD
          (fun r => toFloatCell (RawRecord.get r (pyStrip f.colname)))
          [] FloatCell.nan data cells hm i hi
        dsimp only at hcell
        rw [hnull] at hcell
        have : Except.ok (ε := CoerceError) FloatCell.nan =
            .ok (cells.getD i .nan) := hcell
        injection this with h
        exact h.symm

/-- Witness for C5: a `varchar(3)` column over a single row that lacks the
declared key stores the truncated fill `"Non"`. -/
theorem missing_key_fill_witness :
    (([(⟨"v", "varchar(3)", ""⟩ : FieldDesc)].map
        fun f => (pyStrip f.colname)).Nodup) ∧
    json_to_table [⟨"v", "varchar(3)", ""⟩] [[("other", .str "x")]] =
      .ok [("v", .colU 3 ["Non"])] ∧
    (⟨"v", "varchar(3)", ""⟩ : FieldDesc) ∈
      ([⟨"v", "varchar(3)", ""⟩] : List FieldDesc) ∧
    (0 : ℕ) < ([[("other", Scalar.str "x")]] : List RawRecord).length ∧
    pyStrip "v" ∉
      (([[("other", Scalar.str "x")]] : List RawRecord).getD 0 []).map Prod.fst ∧
    resolveAtype "varchar(3)" = .ok (.U 3) ∧
    ∃ vs, ([("v", Column.colU 3 ["Non"])] : TypedTable).lookup (pyStrip "v") =
        some (.colU 3 vs) ∧
      vs.length = ([[("other", Scalar.str "x")]] : List RawRecord).length ∧
      vs.getD 0 "" = truncate "None" 3 :=
  have h1 : (([(⟨"v", "varchar(3)", ""⟩ : FieldDesc)].map
      fun f => (pyStrip f.colname)).Nodup) := by decide
  have h2 : json_to_table [⟨"v", "varchar(3)", ""⟩] [[("other", .str "x")]] =
      .ok [("v", .colU 3 ["Non"])] := rfl
  have h3 : (⟨"v", "varchar(3)", ""⟩ : FieldDesc) ∈
      ([⟨"v", "varchar(3)", ""⟩] : List FieldDesc) := List.mem_cons_self _ _
  have h4 : (0 : ℕ) < ([[("other", Scalar.str "x")]] : List RawRecord).length := by
    decide
  have h5 : pyStrip "v" ∉
      (([[("other", Scalar.str "x")]] : List RawRecord).getD 0 []).map Prod.fst := by
    decide
  have h6 : resolveAtype "varchar(3)" = .ok (.U 3) := rfl
  ⟨h1, h2, h3, h4, h5, h6,
    ((missing_key_fill.2.2.2.2 _ _ _ h1 h2 _ h3 0 h4 h5).1 3 h6)⟩

/-- C6: the TableCoercer and the NearestTimeIndexer are pure functions
of their declared inputs — the result is fully determined by (timestamps,
query) and by (schema, rows), so any two invocations at equal inputs return
equal results, independent of outside state.  (In the notebook `find_index`
closes over the module-level `cutout_table['TIME']`; per the spec's
contract those timestamps are an explicit argument of the embedding.) -/
theorem purity (ts ts2 : List ℚ) (q q2 : ℚ)
    (schema schema2 : List FieldDesc) (data data2 : List RawRecord)
    (h1 : ts = ts2) (h2 : q = q2) (h3 : schema = schema2) (h4 : data = data2) :
    find_index ts q = find_index ts2 q2 ∧
    json_to_table schema data = json_to_table schema2 data2 := by
  subst h1 h2 h3 h4
  exact ⟨rfl, rfl⟩

/-- Witness for C6 at concrete equal inputs. -/
theorem purity_witness :
    ([(1330 : ℚ), 1332] = [(1330 : ℚ), 1332]) ∧ ((5 : ℚ) = 5) ∧
    ([(⟨"a", "real", ""⟩ : FieldDesc)] = [(⟨"a", "real", ""⟩ : FieldDesc)]) ∧
    (([[("a", Scalar.null)]] : List RawRecord) = [[("a", Scalar.null)]]) ∧
    (find_index [1330, 1332] 5 = find_index [1330, 1332] 5 ∧
      json_to_table [⟨"a", "real", ""⟩] [[("a", Scalar.null)]] =
        json_to_table [⟨"a", "real", ""⟩] [[("a", Scalar.null)]]) :=
  ⟨rfl, rfl, rfl, rfl,
    purity [1330, 1332] [1330, 1332] 5 5 [⟨"a", "real", ""⟩] [⟨"a", "real", ""⟩]
      [[("a", Scalar.null)]] [[("a", Scalar.null)]] rfl rfl rfl rfl⟩

end TessTutorial
